import Mathlib

/-!
Verification of the document-chunking pipeline of this repository.

Text is modelled as `List Char`.  The chunking algorithm itself lives in the
external `langchain_text_splitters.CharacterTextSplitter` library, which is not
part of the repository sources; following the specification, it is modelled
here from the spec's algorithm description (section 4.1), with the separator
fixed to the two-character string used by the code, a double newline.
The in-repository wrappers (`chunk_documents` of both sub-projects, and the
vector-store loading helpers of the test files) are embedded from the source.
-/

/-- Metadata attached to a document, as built in `main.py` `load_documents`:
a title, a category and a section. -/
structure DocMeta where
  title : String
  category : String
  «section» : String
deriving DecidableEq

/-- A LangChain `Document`: page content plus metadata. -/
structure Document where
  content : List Char
  metadata : DocMeta
deriving DecidableEq

/-- A chunk produced by the splitter: text plus the metadata copied from the
source document. -/
structure Chunk where
  text : List Char
  metadata : DocMeta
deriving DecidableEq

/-- The separator the code configures: a double newline. -/
def NNsep : List Char := ['\n', '\n']

/-- Modelled from the spec: splitting a text on every occurrence of the
separator (the spec's "split the document content on occurrences of
`separator` into segments"); matches left-greedy string splitting. -/
def splitNN : List Char → List (List Char)
  | [] => [[]]
  | '\n' :: '\n' :: rest => [] :: splitNN rest
  | c :: rest =>
    match splitNN rest with
    | [] => [[c]]
    | s :: ss => (c :: s) :: ss

/-- Re-joining segments with the separator (the spec's "re-joined by the
separator"); one-sided inverse of `splitNN`. -/
def joinNN : List (List Char) → List Char
  | [] => []
  | [s] => s
  | s :: ss => s ++ NNsep ++ joinNN ss

/-- Whether a text contains an occurrence of the separator. -/
def hasSepNN : List Char → Bool
  | [] => false
  | '\n' :: '\n' :: _ => true
  | _ :: rest => hasSepNN rest

/-- Whitespace trimming at both ends of a text. -/
def trimC (l : List Char) : List Char :=
  ((l.dropWhile Char.isWhitespace).reverse.dropWhile Char.isWhitespace).reverse

/-- The trailing `n` characters of a text. -/
def takeRightC (n : Nat) (l : List Char) : List Char :=
  l.drop (l.length - n)

/-- State of the greedy merge: the running buffer, the seed text the current
buffer was started with (for overlap bookkeeping), and the chunks emitted so
far, each recorded with the seed text it grew from (`none` when it was not
seeded). -/
structure MState where
  buf : Option (List Char)
  curSeed : Option (List Char)
  out : List (List Char × Option (List Char))
deriving DecidableEq

/-- Emit the running buffer as a chunk: its text is trimmed, and
whitespace-only buffers produce no chunk. -/
def emitBuf (st : MState) : MState :=
  match st.buf with
  | none => st
  | some b =>
    if trimC b = [] then { buf := none, curSeed := none, out := st.out }
    else { buf := none, curSeed := none, out := st.out ++ [(trimC b, st.curSeed)] }

/-- The seed for the next buffer: the trailing `ov` characters of the most
recently emitted chunk's text, when `ov > 0` and a chunk exists. -/
def seedFrom (ov : Nat) (out : List (List Char × Option (List Char))) :
    Option (List Char) :=
  if ov = 0 then none
  else
    match out.getLast? with
    | some p => some (takeRightC ov p.1)
    | none => none

/-- Modelled from the spec: one step of the greedy merge (spec section 4.1).
Accumulate the next segment into the buffer, re-joined by the separator,
unless that would make the buffer exceed `max`; in that case emit the buffer,
then either emit the segment alone when it is itself oversize, or seed a new
buffer with the trailing `ov` characters of the previous chunk's text and add
the segment to it. -/
def mergeStep (max ov : Nat) (st : MState) (s : List Char) : MState :=
  let candidate :=
    match st.buf with
    | none => s
    | some b => b ++ NNsep ++ s
  if candidate.length ≤ max then { st with buf := some candidate }
  else
    let st1 := emitBuf st
    if s.length ≤ max then
      match seedFrom ov st1.out with
      | some sd => { buf := some (sd ++ NNsep ++ s), curSeed := some sd, out := st1.out }
      | none => { buf := some s, curSeed := none, out := st1.out }
    else
      if trimC s = [] then { buf := none, curSeed := none, out := st1.out }
      else { buf := none, curSeed := none, out := st1.out ++ [(trimC s, none)] }

/-- Modelled from the spec: the full greedy merge of the segment list,
flushing the final buffer at the end.  Each output pair is a chunk text
together with the seed it was started from. -/
def mergeNN (max ov : Nat) (segs : List (List Char)) :
    List (List Char × Option (List Char)) :=
  (emitBuf (segs.foldl (mergeStep max ov) ⟨none, none, []⟩)).out

/-- Modelled from the spec: `CharacterTextSplitter.split_text` for the
separator fixed to the double newline — split into segments, then greedily
merge them back into chunk texts. -/
def splitTextNN (max ov : Nat) (content : List Char) : List (List Char) :=
  (mergeNN max ov (splitNN content)).map Prod.fst

/-- Splitting one document: every chunk text is paired with a copy of the
document's metadata (as `split_documents` does). -/
def chunkOne (max ov : Nat) (d : Document) : List Chunk :=
  (splitTextNN max ov d.content).map fun t => ⟨t, d.metadata⟩

/-- Chunking configuration: maximum chunk size and overlap, in characters. -/
structure SplitterConfig where
  maxChunkSize : Int
  overlap : Int
deriving DecidableEq

/-- A configuration is valid when `0 < max_chunk_size`, `0 ≤ overlap` and
`overlap < max_chunk_size`. -/
def validConfig (cfg : SplitterConfig) : Bool :=
  0 < cfg.maxChunkSize && 0 ≤ cfg.overlap && cfg.overlap < cfg.maxChunkSize

/-- Error raised on invalid chunking configuration. -/
inductive ChunkError where
  | invalidConfiguration
deriving DecidableEq

/-- Modelled from the spec: `CharacterTextSplitter.split_documents` — fails
with `InvalidConfiguration` exactly on invalid configurations, otherwise
splits each document in order and concatenates the chunks. -/
def splitDocuments (cfg : SplitterConfig) (docs : List Document) :
    Except ChunkError (List Chunk) :=
  if validConfig cfg then
    .ok (docs.flatMap (chunkOne cfg.maxChunkSize.toNat cfg.overlap.toNat))
  else .error .invalidConfiguration

/-- Decidable equality of `Except` results, used to evaluate the model on
concrete inputs. -/
instance instDecEqExcept {e a : Type} [DecidableEq e] [DecidableEq a] :
    DecidableEq (Except e a) := fun x y =>
  match x, y with
  | .ok u, .ok v =>
    if h : u = v then .isTrue (by rw [h])
    else .isFalse (by intro hh; injection hh; contradiction)
  | .error u, .error v =>
    if h : u = v then .isTrue (by rw [h])
    else .isFalse (by intro hh; injection hh; contradiction)
  | .ok u, .error v => .isFalse (by intro hh; injection hh)
  | .error u, .ok v => .isFalse (by intro hh; injection hh)

/-- The configuration hard-coded by both `chunk.py` files:
`chunk_size=500`, `chunk_overlap=50`, separator a double newline. -/
def codeConfig : SplitterConfig := ⟨500, 50⟩

/-- `chunk_documents` of `simple-rag-agent/components/chunk.py`: build the
splitter with the hard-coded configuration and return the chunks. -/
def chunk_documents (docs : List Document) : Except ChunkError (List Chunk) :=
  splitDocuments codeConfig docs

/-- Failure modes of project-1's `chunk_documents`: configuration errors, or
the unguarded statistics block (`sum(chunk_sizes)/len(chunk_sizes)` and
`chunks[0]`) crashing when the splitter returned zero chunks. -/
inductive P1ChunkError where
  | invalidConfiguration
  | emptyStatistics
deriving DecidableEq

/-- `chunk_documents` of `project-1/components/chunk.py`: same splitting, but
the statistics block divides by the number of chunks and indexes the first
chunk, so the call fails when zero chunks were produced. -/
def chunk_documents_p1 (docs : List Document) :
    Except P1ChunkError (List Chunk) :=
  match chunk_documents docs with
  | .error _ => .error .invalidConfiguration
  | .ok cs => if cs.isEmpty then .error .emptyStatistics else .ok cs

/-- Opaque handle for a loaded FAISS vector store. -/
structure VectorStore where
  id : Nat
deriving DecidableEq

/-- Failure of the external `FAISS.load_local` call on existing but corrupt
persisted data. -/
inductive DeserializationFailure where
  | corrupt
deriving DecidableEq

/-- `load_vector_store` of `project-1/tests/test.py`: return `None` when the
path does not exist; otherwise call `FAISS.load_local`, returning its result
on success and `None` (after logging) when it raises. -/
def load_vector_store (pathExists : Bool)
    (loadLocal : Except DeserializationFailure VectorStore) :
    Option VectorStore :=
  if pathExists then
    match loadLocal with
    | .ok vs => some vs
    | .error _ => none
  else none

/-- The caller in `test.py` `main`: the run proceeds exactly when the loader
returned a store, and aborts (returns) on `None`. -/
def test_main_proceeds (res : Option VectorStore) : Bool :=
  res.isSome

/-- The spec's error taxonomy for loading a persisted index. -/
inductive LoadFailure where
  | notFound
  | deserializationError
deriving DecidableEq

/-- Modelled from the spec: `load(path)` "fails with `NotFound` if path
absent, `DeserializationError` if corrupt" — the typed-error behaviour the
claim attributes to the code. -/
def specLoad (pathExists : Bool)
    (loadLocal : Except DeserializationFailure VectorStore) :
    Except LoadFailure VectorStore :=
  if pathExists then
    match loadLocal with
    | .ok vs => .ok vs
    | .error _ => .error .deserializationError
  else .error .notFound

/-- A fixed metadata value used for concrete instances. -/
def meta0 : DocMeta := ⟨"Doc", "Cat", "Sec"⟩

/-- A merge state is good when it already emitted a chunk or its buffer will
produce one (trims non-empty). -/
def GoodS (st : MState) : Prop :=
  st.out ≠ [] ∨ ∃ b, st.buf = some b ∧ trimC b ≠ []

/-- A chunk text is length-admissible: bounded by
`max + overlap + separator-length`, or the trim of a single oversize
segment. -/
def ChunkLenOK (max ov : Nat) (S : List (List Char)) (t : List Char) : Prop :=
  t.length ≤ max + ov + 2 ∨ ∃ s ∈ S, t = trimC s ∧ max < s.length

/-- Length invariant of the merge: the buffer is bounded and every emitted
chunk is length-admissible. -/
def LenInv (max ov : Nat) (S : List (List Char)) (st : MState) : Prop :=
  (∀ b, st.buf = some b → b.length ≤ max + ov + 2) ∧
  (∀ p ∈ st.out, ChunkLenOK max ov S p.1)

/-- Two consecutive output chunks are seed-consistent: when the later one
records a seed, that seed is the trailing `ov` characters of the earlier
one's text. -/
def consecOK (ov : Nat) (p q : List Char × Option (List Char)) : Prop :=
  ∀ sd, q.2 = some sd → takeRightC ov p.1 = sd

/-- Seed invariant of the merge: emitted chunks are pairwise seed-consistent
and the pending buffer's seed comes from the last emitted chunk. -/
def SeedInv (ov : Nat) (st : MState) : Prop :=
  List.Chain' (consecOK ov) st.out ∧
  ∀ sd, st.curSeed = some sd →
    ∃ p, st.out.getLast? = some p ∧ sd = takeRightC ov p.1

/-- Concrete sample documents and contents used to evaluate the model. -/
def dHi : Document := ⟨['h', 'i'], meta0⟩

def dOk : Document := ⟨['o', 'k'], meta0⟩

def dWhitespace : Document := ⟨[' ', '\n', ' '], meta0⟩

/-- Input whose three segments are 480, 460 and 10 characters long. -/
def cexC3doc : Document :=
  ⟨List.replicate 480 'a' ++ NNsep ++ List.replicate 460 'a' ++ NNsep ++
    List.replicate 10 'a', meta0⟩

/-- Input with two 8-character segments, for the overlap-seed witness. -/
def c4doc : List Char := List.replicate 8 'a' ++ NNsep ++ List.replicate 8 'b'


theorem splitNN_ne_nil (l : List Char) : splitNN l ≠ [] := by
  induction l using splitNN.induct <;> simp_all [splitNN]


theorem joinNN_cons_head (c : Char) (s : List Char) (ss : List (List Char)) :
    joinNN ((c :: s) :: ss) = c :: joinNN (s :: ss) := by
  cases ss <;> simp [joinNN]

theorem joinNN_sep_head (ss : List (List Char)) (h : ss ≠ []) :
    joinNN ([] :: ss) = NNsep ++ joinNN ss := by
  cases ss with
  | nil => simp_all
  | cons t ts => simp [joinNN]

theorem joinNN_splitNN (l : List Char) : joinNN (splitNN l) = l := by
  induction l using splitNN.induct with
  | case1 => simp [splitNN, joinNN]
  | case2 rest ih =>
    have h1 : splitNN ('\n' :: '\n' :: rest) = [] :: splitNN rest := by
      simp [splitNN]
    rw [h1, joinNN_sep_head _ (splitNN_ne_nil rest), ih]
    rfl
  | case3 c rest hne h0 ih => exact absurd h0 (splitNN_ne_nil rest)
  | case4 c rest hne s ss hs ih =>
    have h1 : splitNN (c :: rest) = (c :: s) :: ss := by
      rw [splitNN.eq_def]
      split
      · rename_i heq; exact absurd heq (by simp)
      · rename_i r' heq
        injection heq with h1 h2
        exact (hne r' h1 h2).elim
      · rename_i c' rest' hnn heq
        injection heq with h1 h2
        subst h1; subst h2
        rw [hs]
    rw [h1, joinNN_cons_head]
    rw [hs] at ih
    rw [ih]

theorem splitNN_cons_eq (c : Char) (rest : List Char)
    (hne : ∀ (r : List Char), c = '\n' → rest = '\n' :: r → False)
    (s : List Char) (ss : List (List Char)) (hs : splitNN rest = s :: ss) :
    splitNN (c :: rest) = (c :: s) :: ss := by
  rw [splitNN.eq_def]
  split
  · rename_i heq; exact absurd heq (by simp)
  · rename_i r' heq
    injection heq with h1 h2
    exact (hne r' h1 h2).elim
  · rename_i c' rest' hnn heq
    injection heq with h1 h2
    subst h1; subst h2
    rw [hs]

theorem splitNN_noSep (l : List Char) (h : hasSepNN l = false) : splitNN l = [l] := by
  induction l using splitNN.induct with
  | case1 => simp [splitNN]
  | case2 rest ih => simp [hasSepNN] at h
  | case3 c rest hne h0 ih => exact absurd h0 (splitNN_ne_nil rest)
  | case4 c rest hne s ss hs ih =>
    have hrest : hasSepNN rest = false := by
      rw [hasSepNN.eq_def] at h
      split at h
      · rename_i heq; exact absurd heq (by simp)
      · exact absurd h (by simp)
      · rename_i x r hx heq
        injection heq with h1 h2
        subst h2; exact h
    exact splitNN_cons_eq c rest hne rest [] (ih hrest)

theorem allWS_of_splitNN (l : List Char)
    (h : ∀ s ∈ splitNN l, ∀ c ∈ s, c.isWhitespace) :
    ∀ c ∈ l, c.isWhitespace := by
  induction l using splitNN.induct with
  | case1 => simp
  | case2 rest ih =>
    have h1 : splitNN ('\n' :: '\n' :: rest) = [] :: splitNN rest := by simp [splitNN]
    rw [h1] at h
    intro c hc
    simp only [List.mem_cons] at hc
    rcases hc with rfl | rfl | hc
    · decide
    · decide
    · exact ih (fun s hs => h s (List.mem_cons_of_mem _ hs)) c hc
  | case3 c rest hne h0 ih => exact absurd h0 (splitNN_ne_nil rest)
  | case4 c rest hne s ss hs ih =>
    rw [splitNN_cons_eq c rest hne s ss hs] at h
    intro x hx
    simp only [List.mem_cons] at hx
    rcases hx with rfl | hx
    · exact h (x :: s) (by simp) x (by simp)
    · refine ih ?_ x hx
      rw [hs]
      intro t ht y hy
      simp only [List.mem_cons] at ht
      rcases ht with rfl | ht
      · exact h (c :: t) (by simp) y (List.mem_cons_of_mem _ hy)
      · exact h t (List.mem_cons_of_mem _ ht) y hy

theorem joinNN_cons_cons (x y : List Char) (r : List (List Char)) :
    joinNN (x :: y :: r) = joinNN ((x ++ NNsep ++ y) :: r) := by
  cases r <;> simp [joinNN, List.append_assoc]

theorem length_le_joinNN_cons (x : List Char) (r : List (List Char)) :
    x.length ≤ (joinNN (x :: r)).length := by
  cases r <;> simp [joinNN]

theorem takeRightC_length_le (n : Nat) (l : List Char) :
    (takeRightC n l).length ≤ n := by
  simp [takeRightC]
  omega

theorem trimC_length_le (l : List Char) : (trimC l).length ≤ l.length := by
  calc ((l.dropWhile Char.isWhitespace).reverse.dropWhile Char.isWhitespace).reverse.length
      = ((l.dropWhile Char.isWhitespace).reverse.dropWhile Char.isWhitespace).length := by
        rw [List.length_reverse]
    _ ≤ (l.dropWhile Char.isWhitespace).reverse.length :=
        (List.dropWhile_sublist Char.isWhitespace).length_le
    _ = (l.dropWhile Char.isWhitespace).length := by rw [List.length_reverse]
    _ ≤ l.length := (List.dropWhile_sublist Char.isWhitespace).length_le

theorem trimC_eq_nil_iff (l : List Char) :
    trimC l = [] ↔ ∀ c ∈ l, c.isWhitespace := by
  unfold trimC
  rw [List.reverse_eq_nil_iff, List.dropWhile_eq_nil_iff]
  simp only [List.mem_reverse]
  constructor
  · intro h c hc
    by_cases hw : c.isWhitespace
    · exact hw
    · have hsplit := List.takeWhile_append_dropWhile (p := Char.isWhitespace) (l := l)
      rw [← hsplit] at hc
      rcases List.mem_append.1 hc with h1 | h1
      · exact List.mem_takeWhile_imp h1
      · exact h c h1
  · intro h c hc
    exact h c ((List.dropWhile_sublist Char.isWhitespace).mem hc)

theorem foldl_mergeStep_accum (max ov : Nat) :
    ∀ (segs : List (List Char)) (b : List Char) (cs : Option (List Char))
      (out : List (List Char × Option (List Char))),
      (joinNN (b :: segs)).length ≤ max →
      segs.foldl (mergeStep max ov) ⟨some b, cs, out⟩ =
        ⟨some (joinNN (b :: segs)), cs, out⟩ := by
  intro segs
  induction segs with
  | nil =>
    intro b cs out h
    simp only [List.foldl_nil, joinNN]
  | cons s rest ih =>
    intro b cs out h
    rw [List.foldl_cons]
    have hjoin : joinNN (b :: s :: rest) = joinNN ((b ++ NNsep ++ s) :: rest) :=
      joinNN_cons_cons b s rest
    have hcand : (b ++ NNsep ++ s).length ≤ max := by
      refine le_trans ?_ h
      rw [hjoin]
      exact length_le_joinNN_cons _ _
    have hstep : mergeStep max ov ⟨some b, cs, out⟩ s =
        ⟨some (b ++ NNsep ++ s), cs, out⟩ := by
      simp only [mergeStep]
      rw [if_pos hcand]
    rw [hstep, hjoin]
    exact ih (b ++ NNsep ++ s) cs out (by rw [← hjoin]; exact h)

theorem splitTextNN_whole (max ov : Nat) (content : List Char)
    (h1 : content.length ≤ max) (h2 : trimC content ≠ []) :
    splitTextNN max ov content = [trimC content] := by
  obtain ⟨s1, rest, hsplit⟩ : ∃ s1 rest, splitNN content = s1 :: rest := by
    cases hs : splitNN content with
    | nil => exact absurd hs (splitNN_ne_nil content)
    | cons a l => exact ⟨a, l, rfl⟩
  have hjoin : joinNN (s1 :: rest) = content := by rw [← hsplit, joinNN_splitNN]
  unfold splitTextNN mergeNN
  rw [hsplit, List.foldl_cons]
  have hs1 : s1.length ≤ max := by
    refine le_trans ?_ h1
    rw [← hjoin]
    exact length_le_joinNN_cons _ _
  have hstep : mergeStep max ov ⟨none, none, []⟩ s1 = ⟨some s1, none, []⟩ := by
    simp only [mergeStep]
    rw [if_pos hs1]
  rw [hstep, foldl_mergeStep_accum max ov rest s1 none [] (by rw [hjoin]; exact h1)]
  rw [hjoin]
  simp [emitBuf, h2]

theorem goodS_mk_out (b : Option (List Char)) (cs : Option (List Char))
    (out : List (List Char × Option (List Char))) (h : out ≠ []) :
    GoodS ⟨b, cs, out⟩ := Or.inl h

theorem goodS_mk_buf (b : List Char) (cs : Option (List Char))
    (out : List (List Char × Option (List Char))) (h : trimC b ≠ []) :
    GoodS ⟨some b, cs, out⟩ := Or.inr ⟨b, rfl, h⟩

theorem trimC_append_left (b x : List Char) (h : trimC b ≠ []) :
    trimC (b ++ x) ≠ [] := by
  intro hall
  apply h
  rw [trimC_eq_nil_iff] at hall ⊢
  exact fun c hc => hall c (List.mem_append_left x hc)

theorem trimC_append_right (b x : List Char) (h : trimC x ≠ []) :
    trimC (b ++ x) ≠ [] := by
  intro hall
  apply h
  rw [trimC_eq_nil_iff] at hall ⊢
  exact fun c hc => hall c (List.mem_append_right b hc)

theorem emitBuf_out_ne_nil (st : MState) (h : GoodS st) : (emitBuf st).out ≠ [] := by
  rcases st with ⟨buf, cs, out⟩
  rcases h with h | ⟨b, hb, htr⟩
  · cases buf with
    | none => simpa [emitBuf]
    | some b =>
      simp only [emitBuf]
      split <;> simp_all
  · simp only at hb
    subst hb
    simp [emitBuf, htr]

theorem goodS_mergeStep (max ov : Nat) (st : MState) (s : List Char)
    (h : GoodS st) : GoodS (mergeStep max ov st s) := by
  have hout := emitBuf_out_ne_nil st h
  rcases st with ⟨buf, cs, out⟩
  cases buf with
  | none =>
    simp only [mergeStep]
    split
    · rcases h with h | ⟨b, hb, htr⟩
      · exact goodS_mk_out _ _ _ h
      · simp at hb
    · repeat' split
      all_goals refine goodS_mk_out _ _ _ ?_
      all_goals simp_all [List.append_eq_nil]
  | some b =>
    simp only [mergeStep]
    split
    · rcases h with h | ⟨b', hb, htr⟩
      · exact goodS_mk_out _ _ _ h
      · simp only [Option.some.injEq] at hb
        subst hb
        exact goodS_mk_buf _ _ _ (trimC_append_left _ _ (trimC_append_left _ _ htr))
    · repeat' split
      all_goals refine goodS_mk_out _ _ _ ?_
      all_goals simp_all [List.append_eq_nil]

theorem goodS_mergeStep_seg (max ov : Nat) (st : MState) (s : List Char)
    (hs : trimC s ≠ []) : GoodS (mergeStep max ov st s) := by
  rcases st with ⟨buf, cs, out⟩
  cases buf with
  | none =>
    simp only [mergeStep]
    repeat' split
    all_goals first
      | exact goodS_mk_buf _ _ _ (trimC_append_right _ _ hs)
      | exact goodS_mk_buf _ _ _ hs
      | (refine goodS_mk_out _ _ _ ?_; simp_all [List.append_eq_nil])
  | some b =>
    simp only [mergeStep]
    repeat' split
    all_goals first
      | exact goodS_mk_buf _ _ _ (trimC_append_right _ _ hs)
      | exact goodS_mk_buf _ _ _ hs
      | (refine goodS_mk_out _ _ _ ?_; simp_all [List.append_eq_nil])

theorem goodS_foldl (max ov : Nat) (segs : List (List Char)) (st : MState)
    (h : GoodS st) : GoodS (segs.foldl (mergeStep max ov) st) := by
  induction segs generalizing st with
  | nil => exact h
  | cons s rest ih => exact ih _ (goodS_mergeStep max ov st s h)

theorem mergeNN_ne_nil (max ov : Nat) (segs : List (List Char)) (s : List Char)
    (hmem : s ∈ segs) (hs : trimC s ≠ []) : mergeNN max ov segs ≠ [] := by
  obtain ⟨pre, post, rfl⟩ := List.append_of_mem hmem
  unfold mergeNN
  rw [List.foldl_append, List.foldl_cons]
  exact emitBuf_out_ne_nil _
    (goodS_foldl max ov post _ (goodS_mergeStep_seg max ov _ s hs))

theorem seedFrom_length_le (ov : Nat) (out : List (List Char × Option (List Char)))
    (sd : List Char) (h : seedFrom ov out = some sd) : sd.length ≤ ov := by
  unfold seedFrom at h
  split at h
  · exact absurd h (by simp)
  · split at h
    · rename_i p hp
      injection h with h
      subst h
      exact takeRightC_length_le ov p.1
    · exact absurd h (by simp)

theorem lenInv_emitBuf (max ov : Nat) (S : List (List Char)) (st : MState)
    (h : LenInv max ov S st) : LenInv max ov S (emitBuf st) := by
  rcases st with ⟨buf, cs, out⟩
  obtain ⟨h1, h2⟩ := h
  cases buf with
  | none => exact ⟨by simp [emitBuf], by simpa [emitBuf] using h2⟩
  | some b =>
    simp only [emitBuf]
    split
    · exact ⟨by simp, h2⟩
    · refine ⟨by simp, ?_⟩
      intro p hp
      rcases List.mem_append.1 hp with hp | hp
      · exact h2 p hp
      · simp only [List.mem_singleton] at hp
        subst hp
        refine Or.inl ?_
        calc (trimC b).length ≤ b.length := trimC_length_le b
          _ ≤ max + ov + 2 := h1 b rfl

theorem lenInv_mergeStep (max ov : Nat) (S : List (List Char)) (st : MState)
    (s : List Char) (hsS : s ∈ S) (h : LenInv max ov S st) :
    LenInv max ov S (mergeStep max ov st s) := by
  have hemit := lenInv_emitBuf max ov S st h
  simp only [mergeStep]
  split
  next hc =>
    refine ⟨?_, h.2⟩
    intro b hb
    injection hb with hb
    subst hb
    omega
  next hc =>
    split
    next hfit =>
      split
      next sd hsd =>
        refine ⟨?_, hemit.2⟩
        intro b hb
        injection hb with hb
        subst hb
        have hlen : (sd ++ NNsep ++ s).length = sd.length + 2 + s.length := by
          simp [NNsep]
          omega
        have := seedFrom_length_le ov _ sd hsd
        omega
      next hsd =>
        refine ⟨?_, hemit.2⟩
        intro b hb
        injection hb with hb
        subst hb
        omega
    next hbig =>
      split
      next htr => exact ⟨by simp, hemit.2⟩
      next htr =>
        refine ⟨by simp, ?_⟩
        intro p hp
        rcases List.mem_append.1 hp with hp | hp
        · exact hemit.2 p hp
        · simp only [List.mem_singleton] at hp
          subst hp
          exact Or.inr ⟨s, hsS, rfl, by omega⟩

theorem lenInv_foldl (max ov : Nat) (S : List (List Char)) :
    ∀ (segs : List (List Char)), (∀ x ∈ segs, x ∈ S) → ∀ (st : MState),
      LenInv max ov S st → LenInv max ov S (segs.foldl (mergeStep max ov) st) := by
  intro segs
  induction segs with
  | nil => exact fun _ st h => h
  | cons s rest ih =>
    intro hsub st h
    rw [List.foldl_cons]
    exact ih (fun x hx => hsub x (List.mem_cons_of_mem s hx)) _
      (lenInv_mergeStep max ov S st s (hsub s (by simp)) h)

theorem mergeNN_lenOK (max ov : Nat) (segs : List (List Char)) :
    ∀ p ∈ mergeNN max ov segs, ChunkLenOK max ov segs p.1 := by
  unfold mergeNN
  exact (lenInv_emitBuf max ov segs _
    (lenInv_foldl max ov segs segs (fun x hx => hx) ⟨none, none, []⟩
      ⟨by simp, by simp⟩)).2

theorem seedFrom_spec (ov : Nat) (out : List (List Char × Option (List Char)))
    (sd : List Char) (h : seedFrom ov out = some sd) :
    ∃ p, out.getLast? = some p ∧ sd = takeRightC ov p.1 := by
  unfold seedFrom at h
  split at h
  · exact absurd h (by simp)
  · split at h
    · rename_i p hp
      injection h with h
      exact ⟨p, hp, h.symm⟩
    · exact absurd h (by simp)

theorem seedInv_emitBuf (ov : Nat) (st : MState) (h : SeedInv ov st) :
    SeedInv ov (emitBuf st) := by
  rcases st with ⟨buf, cs, out⟩
  obtain ⟨h1, h2⟩ := h
  cases buf with
  | none => exact ⟨h1, h2⟩
  | some b =>
    simp only [emitBuf]
    split
    · exact ⟨h1, by simp⟩
    · refine ⟨?_, by simp⟩
      rw [List.chain'_append]
      refine ⟨h1, List.chain'_singleton _, ?_⟩
      intro x hx y hy
      simp only [List.head?_cons, Option.mem_def, Option.some.injEq] at hy
      subst hy
      intro sd hsd
      obtain ⟨p, hp, hsd'⟩ := h2 sd hsd
      simp only [Option.mem_def] at hx
      rw [hx] at hp
      injection hp with hp
      subst hp
      exact hsd'.symm

theorem seedInv_mergeStep (max ov : Nat) (st : MState) (s : List Char)
    (h : SeedInv ov st) : SeedInv ov (mergeStep max ov st s) := by
  have hemit := seedInv_emitBuf ov st h
  simp only [mergeStep]
  split
  next hc => exact ⟨h.1, h.2⟩
  next hc =>
    split
    next hfit =>
      split
      next sd hsd =>
        refine ⟨hemit.1, ?_⟩
        intro sd' hsd'
        injection hsd' with hsd'
        subst hsd'
        exact seedFrom_spec ov _ _ hsd
      next hsd => exact ⟨hemit.1, by simp⟩
    next hbig =>
      split
      next htr => exact ⟨hemit.1, by simp⟩
      next htr =>
        refine ⟨?_, by simp⟩
        rw [List.chain'_append]
        refine ⟨hemit.1, List.chain'_singleton _, ?_⟩
        intro x hx y hy
        simp only [List.head?_cons, Option.mem_def, Option.some.injEq] at hy
        subst hy
        intro sd hsd
        exact absurd hsd (by simp)

theorem seedInv_foldl (max ov : Nat) (segs : List (List Char)) (st : MState)
    (h : SeedInv ov st) : SeedInv ov (segs.foldl (mergeStep max ov) st) := by
  induction segs generalizing st with
  | nil => exact h
  | cons s rest ih => exact ih _ (seedInv_mergeStep max ov st s h)

theorem mergeNN_chain (max ov : Nat) (segs : List (List Char)) :
    List.Chain' (consecOK ov) (mergeNN max ov segs) := by
  unfold mergeNN
  exact (seedInv_emitBuf ov _
    (seedInv_foldl max ov segs ⟨none, none, []⟩ ⟨List.chain'_nil, by simp⟩)).1

theorem exists_seg_trim_ne (content : List Char) (h : trimC content ≠ []) :
    ∃ s ∈ splitNN content, trimC s ≠ [] := by
  by_contra hall
  push_neg at hall
  apply h
  rw [trimC_eq_nil_iff]
  apply allWS_of_splitNN
  intro s hs c hc
  have h1 := hall s hs
  rw [trimC_eq_nil_iff] at h1
  exact h1 c hc

theorem chunkOne_ne_nil (max ov : Nat) (d : Document)
    (h : trimC d.content ≠ []) : chunkOne max ov d ≠ [] := by
  obtain ⟨s, hs, hstrim⟩ := exists_seg_trim_ne d.content h
  unfold chunkOne splitTextNN
  simp only [ne_eq, List.map_eq_nil_iff]
  exact mergeNN_ne_nil max ov _ s hs hstrim

/-- C1, as stated, is false on the code: a document whose content is empty
(shorter than 500 characters) produces zero chunks, not one. -/
theorem c1_empty_content_counterexample :
    (⟨[], meta0⟩ : Document).content.length < 500 ∧
    chunk_documents [⟨[], meta0⟩] = .ok [] ∧
    chunk_documents [⟨[], meta0⟩] ≠
      .ok [⟨trimC (⟨[], meta0⟩ : Document).content, meta0⟩] := by
  refine ⟨by decide, by decide, by decide⟩

/-- C1 (amended): for every document whose content is shorter than the
configured `max_chunk_size` (500) and whose trimmed content is non-empty,
`chunk_documents` yields exactly one chunk whose text is the document's
content after trimming. -/
theorem c1_short_document_single_trimmed_chunk (d : Document)
    (h1 : d.content.length < 500) (h2 : trimC d.content ≠ []) :
    chunk_documents [d] = .ok [⟨trimC d.content, d.metadata⟩] := by
  unfold chunk_documents splitDocuments
  rw [if_pos (by decide)]
  have hone : chunkOne codeConfig.maxChunkSize.toNat codeConfig.overlap.toNat d =
      [⟨trimC d.content, d.metadata⟩] := by
    have e1 : codeConfig.maxChunkSize.toNat = 500 := rfl
    have e2 : codeConfig.overlap.toNat = 50 := rfl
    rw [e1, e2]
    unfold chunkOne
    rw [splitTextNN_whole 500 50 d.content (Nat.le_of_lt h1) h2]
    rfl
  simp [List.flatMap_cons, hone]

theorem c1_witness :
    chunk_documents [dHi] = .ok [⟨trimC ['h', 'i'], meta0⟩] :=
  c1_short_document_single_trimmed_chunk dHi (by decide) (by decide)

/-- C2: every chunk emitted by the splitter carries exactly the metadata of
the source document it was derived from. -/
theorem c2_metadata_preserved (cfg : SplitterConfig) (docs : List Document)
    (cs : List Chunk) (c : Chunk) (hok : splitDocuments cfg docs = .ok cs)
    (hc : c ∈ cs) :
    ∃ d ∈ docs, c ∈ chunkOne cfg.maxChunkSize.toNat cfg.overlap.toNat d ∧
      c.metadata = d.metadata := by
  unfold splitDocuments at hok
  split at hok
  · injection hok with hok
    subst hok
    obtain ⟨d, hd, hcd⟩ := List.mem_flatMap.1 hc
    refine ⟨d, hd, hcd, ?_⟩
    unfold chunkOne at hcd
    obtain ⟨t, ht, rfl⟩ := List.mem_map.1 hcd
    rfl
  · exact absurd hok (by simp)

theorem c2_witness :
    ∃ d ∈ [dHi], (⟨['h', 'i'], meta0⟩ : Chunk) ∈
      chunkOne codeConfig.maxChunkSize.toNat codeConfig.overlap.toNat d ∧
      (⟨['h', 'i'], meta0⟩ : Chunk).metadata = d.metadata :=
  c2_metadata_preserved codeConfig [dHi] [⟨['h', 'i'], meta0⟩]
    ⟨['h', 'i'], meta0⟩ (by decide) (by decide)

set_option maxRecDepth 1000000 in
/-- C3, as stated, is false on the code: with segments of 480, 460 and 10
characters (none exceeding 500), the overlap-seeded middle buffer is emitted
as a 512-character chunk, exceeding `max_chunk_size` although no single
segment does. -/
theorem c3_seeded_chunk_exceeds_max_counterexample :
    ((splitNN cexC3doc.content).all fun s => s.length ≤ 500) = true ∧
    (match chunk_documents [cexC3doc] with
     | .ok cs => cs.map fun c => c.text.length
     | .error _ => []) = [480, 512, 62] ∧ ¬(512 ≤ 500) := by
  refine ⟨by decide, by decide, by decide⟩

/-- C3 (amended): every chunk is at most `max_chunk_size + overlap +
separator-length` (552) characters long; the stricter `max_chunk_size` bound
can be exceeded not only by an oversize single segment (emitted unsplit,
trimmed) but also by an overlap-seeded buffer. -/
theorem c3_bounded_except_oversize_or_seeded (docs : List Document)
    (cs : List Chunk) (c : Chunk) (hok : chunk_documents docs = .ok cs)
    (hc : c ∈ cs) :
    c.text.length ≤ 552 ∨
      ∃ d ∈ docs, ∃ s ∈ splitNN d.content, c.text = trimC s ∧ 500 < s.length := by
  unfold chunk_documents splitDocuments at hok
  rw [if_pos (by decide)] at hok
  injection hok with hok
  subst hok
  obtain ⟨d, hd, hcd⟩ := List.mem_flatMap.1 hc
  have e1 : codeConfig.maxChunkSize.toNat = 500 := rfl
  have e2 : codeConfig.overlap.toNat = 50 := rfl
  rw [e1, e2] at hcd
  unfold chunkOne at hcd
  obtain ⟨t, ht, rfl⟩ := List.mem_map.1 hcd
  unfold splitTextNN at ht
  obtain ⟨p, hp, rfl⟩ := List.mem_map.1 ht
  rcases mergeNN_lenOK 500 50 (splitNN d.content) p hp with h | ⟨s, hs, heq, hlen⟩
  · exact Or.inl h
  · exact Or.inr ⟨d, hd, s, hs, heq, hlen⟩

theorem c3_witness :
    (⟨['h', 'i'], meta0⟩ : Chunk).text.length ≤ 552 ∨
      ∃ d ∈ [dHi], ∃ s ∈ splitNN d.content,
        (⟨['h', 'i'], meta0⟩ : Chunk).text = trimC s ∧ 500 < s.length :=
  c3_bounded_except_oversize_or_seeded [dHi] [⟨['h', 'i'], meta0⟩]
    ⟨['h', 'i'], meta0⟩ (by decide) (by decide)

/-- C4: for any configuration with positive overlap, whenever two chunks are
emitted consecutively from the same document and the later one was built from
an overlap seed (it derives from multiple parts), that seed is exactly the
trailing `overlap` characters of the previous chunk's text — so those
characters are a prefix of the text used to seed the later chunk. -/
theorem c4_overlap_seed_matches_previous_chunk (max ov : Nat) (hov : 0 < ov)
    (content : List Char) (i : Nat) (t1 : List Char) (o1 : Option (List Char))
    (t2 sd : List Char)
    (h1 : (mergeNN max ov (splitNN content))[i]? = some (t1, o1))
    (h2 : (mergeNN max ov (splitNN content))[i + 1]? = some (t2, some sd)) :
    takeRightC ov t1 = sd ∧
    splitTextNN max ov content = (mergeNN max ov (splitNN content)).map Prod.fst := by
  refine ⟨?_, rfl⟩
  have hchain := mergeNN_chain max ov (splitNN content)
  rw [List.chain'_iff_get] at hchain
  obtain ⟨hlt1, he1⟩ := List.getElem?_eq_some.1 h1
  obtain ⟨hlt2, he2⟩ := List.getElem?_eq_some.1 h2
  have hcon := hchain i (by omega)
  simp only [List.get_eq_getElem] at hcon
  rw [he1, he2] at hcon
  exact hcon sd rfl

theorem c4_witness :
    takeRightC 3 (List.replicate 8 'a') = ['a', 'a', 'a'] ∧
    splitTextNN 10 3 c4doc = (mergeNN 10 3 (splitNN c4doc)).map Prod.fst :=
  c4_overlap_seed_matches_previous_chunk 10 3 (by decide) c4doc 0
    (List.replicate 8 'a') none
    (['a', 'a', 'a'] ++ NNsep ++ List.replicate 8 'b') ['a', 'a', 'a']
    (by decide) (by decide)

/-- C5: chunking fails with `InvalidConfiguration`, producing no chunks,
exactly when the configuration is invalid (`max_chunk_size ≤ 0`, or
`overlap ≥ max_chunk_size`, or `overlap < 0`); on a valid configuration it
returns the chunk list and raises no error. -/
theorem c5_invalid_configuration_iff (cfg : SplitterConfig)
    (docs : List Document) :
    (splitDocuments cfg docs = .error .invalidConfiguration ↔
      validConfig cfg = false) ∧
    (validConfig cfg = true →
      splitDocuments cfg docs =
        .ok (docs.flatMap (chunkOne cfg.maxChunkSize.toNat cfg.overlap.toNat))) := by
  cases hv : validConfig cfg <;> simp [splitDocuments, hv]

theorem c5_witness :
    splitDocuments codeConfig [dHi] =
      .ok ([dHi].flatMap
        (chunkOne codeConfig.maxChunkSize.toNat codeConfig.overlap.toNat)) :=
  (c5_invalid_configuration_iff codeConfig [dHi]).2 (by decide)

/-- C6, as stated, is false on the code: a non-empty document list whose only
document is whitespace-only produces an empty chunk sequence. -/
theorem c6_whitespace_docs_counterexample :
    ([dWhitespace] : List Document) ≠ [] ∧
    chunk_documents [dWhitespace] = .ok [] := by
  refine ⟨by decide, by decide⟩

/-- C6 (amended): chunks are emitted in source-document order and then in
intra-document order (the output is the in-order concatenation of each
document's chunk list), and the output is non-empty provided some input
document has non-whitespace content. -/
theorem c6_order_and_nonempty_amended (docs : List Document)
    (h : ∃ d ∈ docs, trimC d.content ≠ []) :
    chunk_documents docs = .ok ((docs.map (chunkOne 500 50)).flatten) ∧
    (docs.map (chunkOne 500 50)).flatten ≠ [] := by
  constructor
  · unfold chunk_documents splitDocuments
    rw [if_pos (by decide)]
    rfl
  · obtain ⟨d, hd, hdt⟩ := h
    intro hnil
    rw [List.flatten_eq_nil_iff] at hnil
    exact chunkOne_ne_nil 500 50 d hdt (hnil _ (List.mem_map_of_mem _ hd))

theorem c6_witness :
    chunk_documents [dHi] = .ok (([dHi].map (chunkOne 500 50)).flatten) ∧
    (([dHi].map (chunkOne 500 50)).flatten : List Chunk) ≠ [] :=
  c6_order_and_nonempty_amended [dHi] ⟨dHi, by decide, by decide⟩

theorem splitTextNN_single_seg (max ov : Nat) (content : List Char)
    (hsep : hasSepNN content = false) (h2 : trimC content ≠ []) :
    splitTextNN max ov content = [trimC content] := by
  by_cases hlen : content.length ≤ max
  · exact splitTextNN_whole max ov content hlen h2
  · unfold splitTextNN mergeNN
    rw [splitNN_noSep content hsep, List.foldl_cons, List.foldl_nil]
    have hstep : mergeStep max ov ⟨none, none, []⟩ content =
        ⟨none, none, [(trimC content, none)]⟩ := by
      simp only [mergeStep]
      rw [if_neg hlen, if_neg hlen, if_neg h2]
      simp [emitBuf]
    rw [hstep]
    simp [emitBuf]

/-- C7, as stated, is false on the code: a whitespace-only document with no
separator occurrence produces zero chunks, not one chunk equal to the whole
content. -/
theorem c7_whitespace_noseparator_counterexample :
    hasSepNN [' '] = false ∧
    chunk_documents [(⟨[' '], meta0⟩ : Document)] = .ok [] ∧
    chunk_documents [(⟨[' '], meta0⟩ : Document)] ≠
      .ok [⟨[' '], meta0⟩] := by
  refine ⟨by decide, by decide, by decide⟩

/-- C7 (amended): a document whose content contains no separator occurrence
and whose trimmed content is non-empty yields exactly one chunk equal to the
trimmed content, even when the content exceeds `max_chunk_size` (the oversize
segment is emitted unsplit). -/
theorem c7_no_separator_single_chunk (d : Document)
    (h1 : hasSepNN d.content = false) (h2 : trimC d.content ≠ []) :
    chunk_documents [d] = .ok [⟨trimC d.content, d.metadata⟩] := by
  unfold chunk_documents splitDocuments
  rw [if_pos (by decide)]
  have hone : chunkOne codeConfig.maxChunkSize.toNat codeConfig.overlap.toNat d =
      [⟨trimC d.content, d.metadata⟩] := by
    have e1 : codeConfig.maxChunkSize.toNat = 500 := rfl
    have e2 : codeConfig.overlap.toNat = 50 := rfl
    rw [e1, e2]
    unfold chunkOne
    rw [splitTextNN_single_seg 500 50 d.content h1 h2]
    rfl
  simp [List.flatMap_cons, hone]

theorem c7_witness :
    chunk_documents [dOk] = .ok [⟨trimC ['o', 'k'], meta0⟩] :=
  c7_no_separator_single_chunk dOk (by decide) (by decide)

/-- C8: chunking is deterministic — two calls on equal document lists with
the same configuration return identical chunk sequences. -/
theorem c8_chunking_deterministic (cfg : SplitterConfig)
    (docs docs2 : List Document) (h : docs = docs2) :
    splitDocuments cfg docs = splitDocuments cfg docs2 := by
  rw [h]

theorem c8_witness :
    splitDocuments codeConfig [dHi] = splitDocuments codeConfig [dHi] :=
  c8_chunking_deterministic codeConfig [dHi] [dHi] rfl

/-- C9, as stated, is false on the code: the spec-level loader distinguishes
a missing path (`NotFound`) from corrupt data (`DeserializationError`), but
`load_vector_store` returns the same `None` sentinel in both situations, so
no typed error reaches the caller. -/
theorem c9_error_kinds_collapsed_counterexample :
    specLoad false (.ok ⟨0⟩) ≠ specLoad true (.error .corrupt) ∧
    load_vector_store false (.ok ⟨0⟩) = load_vector_store true (.error .corrupt) ∧
    load_vector_store false (.ok ⟨0⟩) = none := by
  refine ⟨by decide, by decide, by decide⟩

/-- C9 (amended): `load_vector_store` returns `None` both when the path is
absent and when deserialization fails (the exception is caught and only
logged), returns the store on success, and the caller aborts the run exactly
when `None` is returned. -/
theorem c9_none_sentinel_and_abort :
    (∀ r : Except DeserializationFailure VectorStore,
      load_vector_store false r = none) ∧
    (∀ e : DeserializationFailure, load_vector_store true (.error e) = none) ∧
    (∀ v : VectorStore, load_vector_store true (.ok v) = some v) ∧
    test_main_proceeds none = false ∧
    (∀ v : VectorStore, test_main_proceeds (some v) = true) :=
  ⟨fun _ => rfl, fun _ => rfl, fun _ => rfl, rfl, fun _ => rfl⟩

theorem c9_witness :
    load_vector_store false (.ok ⟨1⟩) = none ∧
    load_vector_store true (.error .corrupt) = none ∧
    load_vector_store true (.ok ⟨1⟩) = some ⟨1⟩ ∧
    test_main_proceeds none = false ∧
    test_main_proceeds (some ⟨1⟩) = true :=
  ⟨c9_none_sentinel_and_abort.1 _, c9_none_sentinel_and_abort.2.1 _,
    c9_none_sentinel_and_abort.2.2.1 _, c9_none_sentinel_and_abort.2.2.2.1,
    c9_none_sentinel_and_abort.2.2.2.2 _⟩

/-- C10: on a non-empty document list on which the splitter produces zero
chunks (every document has empty content), project-1's `chunk_documents`
does not return a chunk sequence: its statistics block divides by the number
of chunks and indexes the first chunk without a guard, so the call fails. -/
theorem c10_empty_chunks_statistics_failure :
    ([(⟨[], meta0⟩ : Document)] : List Document) ≠ [] ∧
    chunk_documents [(⟨[], meta0⟩ : Document)] = .ok [] ∧
    chunk_documents_p1 [(⟨[], meta0⟩ : Document)] = .error .emptyStatistics := by
  refine ⟨by decide, by decide, by decide⟩
